import Mathlib

/-!
Verification development for physo/learn/monitoring.py.

The module implements run-time logging (RunLogger) and live visualisation
(RunVisualiser) for an iterative program-search training loop.  We give a
shallow embedding of the state and operations of both classes and prove the
behavioural properties of the logger (hall of fame, Pareto grid, Pareto front
extraction, CSV log) and of the visualiser (refresh schedule, error handling).

Modelling conventions:
- numpy float arrays become `List ℚ`; `np.NaN` entries of the Pareto reward
  grid become `none` in `List (Option ℚ)` (the code only ever tests them with
  `np.isnan` or orders them against real values, which IEEE evaluates to
  false, exactly the `Option` behaviour encoded below);
- a program object is identified by the pair (epoch it was sampled in, its
  index inside that epoch's batch), which is what `batch.programs.get_prog`
  hands to the logger;
- the batch/program/reward objects are produced by the external optimizer
  (outside this module); a batch is therefore a record of the data the logger
  reads from it.  `tokens.complexity[i].sum()` and `n_complexity[i]` are the
  same per-program total complexity and are modelled by one field;
- operations that would raise in Python on out-of-range indexing are embedded
  with `List.getD` defaults; every theorem that relies on staying inside the
  non-raising region carries the corresponding well-formedness hypothesis.
-/

/-- Program identity: (epoch, index in that epoch's batch). -/
abbrev Prog := ℕ × ℕ

/-- Maximum of a list of rationals, as numpy `max`; `0` on `[]` (where numpy
raises instead; theorems keep lists nonempty). -/
def maxQ : List ℚ → ℚ
  | [] => 0
  | [x] => x
  | x :: y :: xs => max x (maxQ (y :: xs))

/-- Index of the first occurrence of the maximum, as numpy `argmax`; `0` on
`[]`. -/
def argmaxQ : List ℚ → ℕ
  | [] => 0
  | [_] => 0
  | x :: y :: xs => if maxQ (y :: xs) ≤ x then 0 else argmaxQ (y :: xs) + 1

/-- Arithmetic mean, as numpy `mean`; `0` on `[]` (numpy yields NaN there). -/
def meanQ (l : List ℚ) : ℚ := l.sum / l.length

/-- Fancy indexing `xs[idxs]` of a numpy array by an index array. -/
def selectIdx (xs : List ℚ) (idxs : List ℕ) : List ℚ :=
  idxs.map (fun i => xs.getD i 0)

/-- numpy `round`: round half to even (banker's rounding).  The fractional
part `d = q - floor q` is compared with `1/2` through the integer quantity
`2 * (num - floor * den)` versus `den`, which is the same comparison scaled by
the positive denominator. -/
def npRound (q : ℚ) : ℤ :=
  let f := q.floor
  let r2 := 2 * (q.num - f * (q.den : ℤ))
  if r2 < (q.den : ℤ) then f
  else if (q.den : ℤ) < r2 then f + 1
  else if f % 2 = 0 then f else f + 1

/-- The data `RunLogger.log` reads from one call: the batch produced by the
external optimizer plus the `keep` / `notkept` index arrays and the loss. -/
structure LogInput where
  batch_size : ℕ
  /-- per-program rewards (`rewards`) -/
  rewards : List ℚ
  /-- per-program total complexity (`n_complexity`, equal to
  `tokens.complexity[i].sum()`) -/
  complexity : List ℚ
  /-- per-program lengths (`n_lengths`) -/
  lengths : List ℕ
  /-- per-program unit-consistency flags (`is_physical`) -/
  is_phys : List Bool
  /-- `batch.max_time_step` -/
  maxTimeStep : ℕ
  /-- indices of elite programs (`keep`) -/
  keep : List ℕ
  /-- indices of the other programs (`notkept`) -/
  notkept : List ℕ
  /-- scalar loss value (`loss_val`) -/
  lossVal : ℚ
  deriving Repr, DecidableEq

instance : Inhabited LogInput := ⟨⟨0, [], [], [], [], 0, [], [], 0⟩⟩

/-- Well-formedness of one call's data: a nonempty batch whose per-program
arrays all have length `batch_size` and whose `keep` indices are in range.
Python raises (numpy `argmax` / fancy indexing / pandas column length) outside
this region. -/
def LogInput.WF (inp : LogInput) : Prop :=
  0 < inp.batch_size ∧
  inp.rewards.length = inp.batch_size ∧
  inp.complexity.length = inp.batch_size ∧
  inp.lengths.length = inp.batch_size ∧
  inp.is_phys.length = inp.batch_size ∧
  ∀ k ∈ inp.keep, k < inp.batch_size

instance (inp : LogInput) : Decidable inp.WF := by
  unfold LogInput.WF; infer_instance

/-- One row of the CSV log written by `RunLogger.save_log` (the `program`
column stores the program's printed expression; we keep its identity). -/
structure CsvRow where
  epoch : ℕ
  reward : ℚ
  complexity : ℚ
  length : ℕ
  is_phys : Bool
  is_elite : Bool
  program : Prog
  deriving Repr, DecidableEq

/-- Rows appended to the CSV by `RunLogger.save_log` for the current batch:
one row per program of the batch; `is_elite` is set by `is_elite[keep] = True`
over an all-False array. -/
def batchRows (epoch : ℕ) (inp : LogInput) : List CsvRow :=
  (List.range inp.batch_size).map (fun j =>
    { epoch := epoch
      reward := inp.rewards.getD j 0
      complexity := inp.complexity.getD j 0
      length := inp.lengths.getD j 0
      is_phys := inp.is_phys.getD j false
      is_elite := inp.keep.contains j
      program := (epoch, j) })

/-- `RunLogger.save_log`: at epoch 0 the file is recreated holding only the
header (modelled as the empty row list), then the current batch's rows are
appended. -/
def save_log (csv : List CsvRow) (epoch : ℕ) (inp : LogInput) : List CsvRow :=
  (if epoch = 0 then [] else csv) ++ batchRows epoch inp

/-- Indices in the batch of the programs whose rounded complexity equals `c`
(`np.argwhere(curr_complexities.round() == c)` in `pareto_logger`). -/
def idxAtBin (comps : List ℚ) (c : ℤ) : List ℕ :=
  (List.range comps.length).filter (fun j => npRound (comps.getD j 0) = c)

/-- Index in the batch of the program with complexity bin `c` and maximal
reward (`arg_have_c[curr_rewards[arg_have_c].argmax()]`); meaningful when
`idxAtBin` is nonempty. -/
def argmaxAt (rewards : List ℚ) (idxs : List ℕ) : ℕ :=
  idxs.getD (argmaxQ (idxs.map (fun j => rewards.getD j 0))) 0

/-- Body of the `pareto_logger` loop for one grid cell: if some program of the
current batch falls in bin `c`, its maximal reward `max_r_at_c` replaces the
cell whenever the cell is NaN (`none`) or holds a value `≤ max_r_at_c`. -/
def paretoCell (epoch : ℕ) (comps rewards : List ℚ) (c : ℕ)
    (cell : Option ℚ × Option Prog) : Option ℚ × Option Prog :=
  if (idxAtBin comps (c : ℤ)).length = 0 then cell
  else
    match cell.1 with
    | none =>
      (some (rewards.getD (argmaxAt rewards (idxAtBin comps (c : ℤ))) 0),
       some (epoch, argmaxAt rewards (idxAtBin comps (c : ℤ))))
    | some v =>
      if v ≤ rewards.getD (argmaxAt rewards (idxAtBin comps (c : ℤ))) 0 then
        (some (rewards.getD (argmaxAt rewards (idxAtBin comps (c : ℤ))) 0),
         some (epoch, argmaxAt rewards (idxAtBin comps (c : ℤ))))
      else cell

/-- `RunLogger.pareto_logger`: at epoch 0 the grid is (re)initialised to
`np.arange(0, 10*max_time_step)` complexity bins with NaN rewards and absent
programs; every cell is then updated from the current batch.  Returns the new
`(pareto_complexities, pareto_rewards, pareto_programs)`. -/
def pareto_logger (epoch : ℕ) (mts : ℕ) (comps rewards : List ℚ)
    (pc : List ℕ) (pr : List (Option ℚ)) (pp : List (Option Prog)) :
    List ℕ × List (Option ℚ) × List (Option Prog) :=
  let pc := if epoch = 0 then List.range (10 * mts) else pc
  let pr := if epoch = 0 then List.replicate (10 * mts) none else pr
  let pp := if epoch = 0 then List.replicate (10 * mts) none else pp
  let cells := pc.enum.map (fun ic =>
    paretoCell epoch comps rewards ic.2 (pr.getD ic.1 none, pp.getD ic.1 none))
  (pc, cells.map Prod.fst, cells.map Prod.snd)

/-- One valid Pareto candidate: complexity bin, stored program, reward. -/
structure Cand where
  c : ℕ
  p : Option Prog
  r : ℚ
  deriving Repr, DecidableEq

/-- The candidates surviving the validity mask of `get_pareto_front`
(`(~np.isnan(pareto_rewards)) & (pareto_rewards > 0)`), in grid order. -/
def validCands (pc : List ℕ) (pr : List (Option ℚ)) (pp : List (Option Prog)) :
    List Cand :=
  (List.range pr.length).filterMap (fun i =>
    match pr.getD i none with
    | none => none
    | some r => if 0 < r then some ⟨pc.getD i 0, pp.getD i none, r⟩ else none)

/-- The scan loop of `get_pareto_front`: a candidate is appended when its
reward strictly exceeds the last kept reward. -/
def frontGo (front : List Cand) : List Cand → List Cand
  | [] => front
  | v :: rest =>
    if ((front.getLast?).map Cand.r).getD 0 < v.r then frontGo (front ++ [v]) rest
    else frontGo front rest

/-- `RunLogger.get_pareto_front`: masks the grid to valid candidates, seeds
the front with the first one (raising `IndexError`, i.e. `none`, when there is
none), scans the candidates, and returns complexities, programs, rewards and
rmse values (`(1/r - 1) * y_target.std()`). -/
def get_pareto_front (pc : List ℕ) (pr : List (Option ℚ)) (pp : List (Option Prog))
    (ystd : ℚ) : Option (List ℕ × List (Option Prog) × List ℚ × List ℚ) :=
  match validCands pc pr pp with
  | [] => none
  | v0 :: rest =>
    let front := frontGo [v0] (v0 :: rest)
    some (front.map Cand.c, front.map Cand.p, front.map Cand.r,
      front.map (fun v => (1 / v.r - 1) * ystd))

/-- The state of a `RunLogger` after `initialize` and any number of `log`
calls.  `csv` models the contents of the file at `save_path` (the rows after
the header).  Per-epoch scratch attributes (`self.R`, `self.keep`, ...) are
passed to the helper functions directly instead of being stored. -/
structure LoggerState where
  do_save : Bool
  epoch : Option ℕ
  overall_max_R_history : List ℚ
  hall_of_fame : List Prog
  epochs_history : List ℕ
  loss_history : List ℚ
  mean_R_train_history : List ℚ
  mean_R_history : List ℚ
  max_R_history : List ℚ
  R_history : List (List ℚ)
  R_history_train : List (List ℚ)
  best_prog_complexity_history : List ℚ
  mean_complexity_history : List ℚ
  n_physical : List ℕ
  lengths_of_physical : List (List ℕ)
  lengths_of_unphysical : List (List ℕ)
  pareto_complexities : List ℕ
  pareto_rewards : List (Option ℚ)
  pareto_programs : List (Option Prog)
  csv : List CsvRow
  deriving Repr, DecidableEq

/-- `RunLogger.__init__` / `RunLogger.initialize`: fresh empty histories.
The Pareto grid attributes do not exist before the first `log` call; they are
modelled as empty lists (on which `get_pareto_front` fails, as in Python). -/
def initLogger (do_save : Bool) : LoggerState :=
  { do_save := do_save
    epoch := none
    overall_max_R_history := []
    hall_of_fame := []
    epochs_history := []
    loss_history := []
    mean_R_train_history := []
    mean_R_history := []
    max_R_history := []
    R_history := []
    R_history_train := []
    best_prog_complexity_history := []
    mean_complexity_history := []
    n_physical := []
    lengths_of_physical := []
    lengths_of_unphysical := []
    pareto_complexities := []
    pareto_rewards := []
    pareto_programs := []
    csv := [] }

/-- `RunLogger.log`: hall-of-fame / running-maximum update, one append to each
per-epoch history, Pareto grid update, and (when `do_save`) the CSV append. -/
def log (s : LoggerState) (epoch : ℕ) (inp : LogInput) : LoggerState :=
  let best_prog_idx_epoch := argmaxQ inp.rewards
  let rmax := maxQ inp.rewards
  let keptR := selectIdx inp.rewards inp.keep
  let omax :=
    if epoch = 0 then [rmax]
    else if maxQ s.overall_max_R_history < rmax then
      s.overall_max_R_history ++ [rmax]
    else s.overall_max_R_history ++ [(s.overall_max_R_history.getLast?).getD 0]
  let hof :=
    if epoch = 0 then [((0 : ℕ), best_prog_idx_epoch)]
    else if maxQ s.overall_max_R_history < rmax then
      s.hall_of_fame ++ [(epoch, best_prog_idx_epoch)]
    else s.hall_of_fame
  let pareto := pareto_logger epoch inp.maxTimeStep inp.complexity inp.rewards
    s.pareto_complexities s.pareto_rewards s.pareto_programs
  { s with
    epoch := some epoch
    overall_max_R_history := omax
    hall_of_fame := hof
    epochs_history := s.epochs_history ++ [epoch]
    loss_history := s.loss_history ++ [inp.lossVal]
    mean_R_train_history := s.mean_R_train_history ++ [meanQ keptR]
    mean_R_history := s.mean_R_history ++ [meanQ inp.rewards]
    max_R_history := s.max_R_history ++ [rmax]
    R_history := s.R_history ++ [inp.rewards]
    R_history_train := s.R_history_train ++ [keptR]
    best_prog_complexity_history :=
      s.best_prog_complexity_history ++ [inp.complexity.getD best_prog_idx_epoch 0]
    mean_complexity_history := s.mean_complexity_history ++ [meanQ inp.complexity]
    n_physical := s.n_physical ++ [inp.is_phys.count true]
    lengths_of_physical := s.lengths_of_physical ++
      [((inp.lengths.zip inp.is_phys).filterMap (fun lb =>
        if lb.2 then some lb.1 else none))]
    lengths_of_unphysical := s.lengths_of_unphysical ++
      [((inp.lengths.zip inp.is_phys).filterMap (fun lb =>
        if lb.2 then none else some lb.1))]
    pareto_complexities := pareto.1
    pareto_rewards := pareto.2.1
    pareto_programs := pareto.2.2
    csv := if s.do_save then save_log s.csv epoch inp else s.csv }

/-- `RunLogger.best_prog`: last entry of the hall of fame (raises on the empty
hall, i.e. before the first `log` call). -/
def best_prog (s : LoggerState) : Option Prog := s.hall_of_fame.getLast?

/-- Folding `log` over a sequence of (epoch, input) calls. -/
def runLogFrom (s : LoggerState) : List (ℕ × LogInput) → LoggerState
  | [] => s
  | (e, inp) :: rest => runLogFrom (log s e inp) rest

/-- A standard run: a fresh logger fed with epochs 0, 1, 2, ... in order. -/
def runLogSeq (do_save : Bool) (inps : List LogInput) : LoggerState :=
  runLogFrom (initLogger do_save) ((List.range inps.length).zip inps)

/-- Reward of a program identity under a run: the reward its batch assigned to
it. -/
def progReward (inps : List LogInput) (p : Prog) : ℚ :=
  ((inps.getD p.1 default).rewards).getD p.2 0

/-- The running maximum after epoch `t`: the largest per-epoch maximum reward
over epochs `0..t`. -/
def runningMax (inps : List LogInput) (t : ℕ) : ℚ :=
  maxQ ((inps.take (t + 1)).map (fun inp => maxQ inp.rewards))

/-- All rewards, across a whole run, of programs whose rounded complexity is
the bin `i`. -/
def binRewards (inps : List LogInput) (i : ℕ) : List ℚ :=
  (inps.map (fun inp =>
    (idxAtBin inp.complexity (i : ℤ)).map (fun j => inp.rewards.getD j 0))).flatten

/-- Maximum of a list as an `Option`: `none` on the empty list. -/
def listMaxO (l : List ℚ) : Option ℚ :=
  match l with
  | [] => none
  | _ :: _ => some (maxQ l)

/-! ### RunVisualiser -/

/-- The state of a successfully constructed `RunVisualiser`. -/
structure RVState where
  epoch_refresh_rate : ℕ
  save_path : String
  save_path_log : String
  do_show : Bool
  do_save : Bool
  deriving Repr, DecidableEq

/-- The derived log path: `save_path` split on `.`, last component dropped,
joined, with `_log.csv` appended. -/
def logPathOf (p : String) : String :=
  String.join ((p.splitOn ".").dropLast) ++ "_log.csv"

/-- `RunVisualiser.__init__`: `save_path_log` is computed unconditionally from
`save_path`, so a `None` path raises (`AttributeError` on `None.split`)
whatever the other arguments are. -/
def runVisualiserInit (epoch_refresh_rate : ℕ) (save_path : Option String)
    (do_show do_save : Bool) : Except String RVState :=
  match save_path with
  | none => Except.error "AttributeError: NoneType object has no attribute split"
  | some p =>
    Except.ok
      { epoch_refresh_rate := epoch_refresh_rate
        save_path := p
        save_path_log := logPathOf p
        do_show := do_show
        do_save := do_save }

/-- Observable actions of `RunVisualiser.visualise`. -/
inductive VisEvent where
  /-- storing the `run_logger` and `batch` references on `self` -/
  | storeRefs
  /-- `self.initialize()`: creation of the matplotlib figure -/
  | initFig
  /-- `self.make_visualisation()` (prints + plot update + display) -/
  | makeVis
  /-- `self.save_visualisation()` (prints + plot update + savefig) -/
  | saveVis
  /-- the `except` branch printing "Unable to make visualisation plots." -/
  | printFailMsg
  deriving Repr, DecidableEq

/-- Body of the `try` block of `visualise`.  `makeOk` / `saveOk` say whether
the external plotting calls succeed; a raise aborts the rest of the block. -/
def tryRender (v : RVState) (makeOk saveOk : Bool) : Except Unit (List VisEvent) :=
  match (if v.do_show then
      (if makeOk then Except.ok [VisEvent.makeVis] else Except.error ())
    else Except.ok []) with
  | Except.error e => Except.error e
  | Except.ok e1 =>
    match (if v.do_save then
        (if saveOk then Except.ok [VisEvent.saveVis] else Except.error ())
      else Except.ok []) with
    | Except.error e => Except.error e
    | Except.ok e2 => Except.ok (e1 ++ e2)

/-- `RunVisualiser.visualise`: stores the references, creates the figure at
epoch 0 (outside the `try`, `initOk` says whether that raises), and on epochs
that are multiples of `epoch_refresh_rate` runs the protected rendering block,
turning any raise into the printed failure message. -/
def visualise (v : RVState) (epoch : ℕ) (initOk makeOk saveOk : Bool) :
    Except String (List VisEvent) :=
  match (if epoch = 0 then
      (if initOk then Except.ok [VisEvent.initFig]
       else Except.error "figure creation raised")
    else Except.ok ([] : List VisEvent)) with
  | Except.error e => Except.error e
  | Except.ok initEvents =>
    let renderEvents :=
      if epoch % v.epoch_refresh_rate = 0 then
        match tryRender v makeOk saveOk with
        | Except.ok evs => evs
        | Except.error _ => [VisEvent.printFailMsg]
      else []
    Except.ok (VisEvent.storeRefs :: (initEvents ++ renderEvents))

/-! ### Cost instrumentation

The cost model counts one unit per array element read in each numpy pass: an
`argwhere` over the batch complexities costs `batch_size`, the subsequent
`argmax` over the matching rewards costs the number of matches, the validity
mask of `get_pareto_front` costs one read per grid cell, and its scan one
read per valid candidate. -/

/-- Element reads performed by one iteration of the `pareto_logger` loop. -/
def paretoCellCost (comps : List ℚ) (c : ℕ) : ℕ :=
  comps.length + (idxAtBin comps (c : ℤ)).length

/-- Element reads performed by one `pareto_logger` call. -/
def pareto_logger_cost (epoch : ℕ) (mts : ℕ) (comps : List ℚ) (pc : List ℕ) : ℕ :=
  let pc := if epoch = 0 then List.range (10 * mts) else pc
  (pc.map (fun c => paretoCellCost comps c)).sum

/-- Element reads performed by one `get_pareto_front` call. -/
def get_pareto_front_cost (pc : List ℕ) (pr : List (Option ℚ))
    (pp : List (Option Prog)) : ℕ :=
  pr.length + (validCands pc pr pp).length

instance : Inhabited Cand := ⟨⟨0, none, 0⟩⟩

instance : Inhabited CsvRow := ⟨⟨0, 0, 0, 0, false, false, (0, 0)⟩⟩

/-! ### Helper lemmas on `maxQ` and `argmaxQ` -/

theorem maxQ_cons (x : ℚ) (xs : List ℚ) :
    maxQ (x :: xs) = if xs.isEmpty then x else max x (maxQ xs) := by
  cases xs <;> simp [maxQ]

theorem le_maxQ {a : ℚ} {l : List ℚ} (h : a ∈ l) : a ≤ maxQ l := by
  induction l with
  | nil => cases h
  | cons x xs ih =>
    rw [maxQ_cons]
    rcases List.mem_cons.mp h with rfl | hmem
    · cases xs <;> simp
    · have hxs : ¬ xs.isEmpty := by
        cases xs
        · cases hmem
        · simp
      simp only [hxs, if_false]
      exact le_trans (ih hmem) (le_max_right _ _)

theorem maxQ_append {l1 l2 : List ℚ} (h1 : l1 ≠ []) (h2 : l2 ≠ []) :
    maxQ (l1 ++ l2) = max (maxQ l1) (maxQ l2) := by
  induction l1 with
  | nil => exact absurd rfl h1
  | cons x xs ih =>
    cases xs with
    | nil =>
      cases l2 with
      | nil => exact absurd rfl h2
      | cons y ys => simp [maxQ, maxQ_cons]
    | cons x2 xs2 =>
      have hrec := ih (by simp)
      calc maxQ ((x :: x2 :: xs2) ++ l2)
          = max x (maxQ ((x2 :: xs2) ++ l2)) := by simp [maxQ_cons]
        _ = max x (max (maxQ (x2 :: xs2)) (maxQ l2)) := by rw [hrec]
        _ = max (max x (maxQ (x2 :: xs2))) (maxQ l2) := by rw [max_assoc]
        _ = max (maxQ (x :: x2 :: xs2)) (maxQ l2) := by simp [maxQ_cons]

theorem maxQ_concat {l : List ℚ} {x : ℚ} (h : l ≠ []) :
    maxQ (l ++ [x]) = max (maxQ l) x := by
  rw [maxQ_append h (by simp)]
  rfl

theorem argmaxQ_lt_length {l : List ℚ} (h : l ≠ []) : argmaxQ l < l.length := by
  induction l with
  | nil => exact absurd rfl h
  | cons x xs ih =>
    cases xs with
    | nil => simp [argmaxQ]
    | cons y ys =>
      rw [argmaxQ]
      split
      · simp
      · exact Nat.succ_lt_succ (ih (by simp))

theorem getD_argmaxQ {l : List ℚ} (h : l ≠ []) : l.getD (argmaxQ l) 0 = maxQ l := by
  induction l with
  | nil => exact absurd rfl h
  | cons x xs ih =>
    cases xs with
    | nil => simp [argmaxQ, maxQ]
    | cons y ys =>
      have hm : maxQ (x :: y :: ys) = max x (maxQ (y :: ys)) := rfl
      rw [argmaxQ, hm]
      split
      · next hle => simp [max_eq_left hle]
      · next hlt =>
        have hmax : max x (maxQ (y :: ys)) = maxQ (y :: ys) :=
          max_eq_right (le_of_lt (lt_of_not_le hlt))
        rw [hmax]
        simpa using ih (by simp)

/-! ### Small list lemmas -/

theorem getD_concat_length {α : Type} (l : List α) (x d : α) :
    (l ++ [x]).getD l.length d = x := by
  rw [List.getD_append_right l [x] d l.length (le_refl _)]
  simp [List.getD]

theorem mem_of_getLast?_eq {α : Type} {l : List α} {a : α}
    (h : l.getLast? = some a) : a ∈ l := by
  have hx : a ∈ l.getLast? := Option.mem_def.mpr h
  rcases List.mem_getLast?_eq_getLast hx with ⟨hne, rfl⟩
  exact List.getLast_mem hne

theorem take_concat_getD {α : Type} [Inhabited α] {l : List α} {t : ℕ}
    (h : t < l.length) : l.take (t + 1) = l.take t ++ [l.getD t default] := by
  have hg : l[t]? = some (l.getD t default) := by
    rw [List.getElem?_eq_getElem h, List.getD_eq_getElem _ _ h]
  rw [List.take_succ, hg]
  rfl

theorem getD_range {n i : ℕ} (h : i < n) (d : ℕ) : (List.range n).getD i d = i := by
  rw [List.getD_eq_getElem _ _ (by simpa using h)]
  simp

theorem getD_replicate {α : Type} {n i : ℕ} (h : i < n) (a d : α) :
    (List.replicate n a).getD i d = a := by
  rw [List.getD_eq_getElem _ _ (by simpa using h)]
  simp

theorem getD_take {α : Type} {l : List α} {i n : ℕ} (h : i < n) (hn : n ≤ l.length)
    (d : α) : (l.take n).getD i d = l.getD i d := by
  have hi : i < l.length := lt_of_lt_of_le h hn
  have hi2 : i < (l.take n).length := by
    rw [List.length_take]
    exact lt_min h hi
  rw [List.getD_eq_getElem _ _ hi2, List.getD_eq_getElem _ _ hi, List.getElem_take]

/-! ### Projections of `log` -/

theorem log_overall (s : LoggerState) (epoch : ℕ) (inp : LogInput) :
    (log s epoch inp).overall_max_R_history =
      if epoch = 0 then [maxQ inp.rewards]
      else if maxQ s.overall_max_R_history < maxQ inp.rewards then
        s.overall_max_R_history ++ [maxQ inp.rewards]
      else
        s.overall_max_R_history ++ [(s.overall_max_R_history.getLast?).getD 0] := rfl

theorem log_hof (s : LoggerState) (epoch : ℕ) (inp : LogInput) :
    (log s epoch inp).hall_of_fame =
      if epoch = 0 then [((0 : ℕ), argmaxQ inp.rewards)]
      else if maxQ s.overall_max_R_history < maxQ inp.rewards then
        s.hall_of_fame ++ [(epoch, argmaxQ inp.rewards)]
      else s.hall_of_fame := rfl

theorem log_epochs (s : LoggerState) (epoch : ℕ) (inp : LogInput) :
    (log s epoch inp).epochs_history = s.epochs_history ++ [epoch] := rfl

theorem log_pareto_c (s : LoggerState) (epoch : ℕ) (inp : LogInput) :
    (log s epoch inp).pareto_complexities =
      (pareto_logger epoch inp.maxTimeStep inp.complexity inp.rewards
        s.pareto_complexities s.pareto_rewards s.pareto_programs).1 := rfl

theorem log_pareto_r (s : LoggerState) (epoch : ℕ) (inp : LogInput) :
    (log s epoch inp).pareto_rewards =
      (pareto_logger epoch inp.maxTimeStep inp.complexity inp.rewards
        s.pareto_complexities s.pareto_rewards s.pareto_programs).2.1 := rfl

theorem log_csv (s : LoggerState) (epoch : ℕ) (inp : LogInput) :
    (log s epoch inp).csv =
      if s.do_save then save_log s.csv epoch inp else s.csv := rfl

/-! ### Unfolding runs -/

theorem runLogFrom_append (s : LoggerState) (l1 l2 : List (ℕ × LogInput)) :
    runLogFrom s (l1 ++ l2) = runLogFrom (runLogFrom s l1) l2 := by
  induction l1 generalizing s with
  | nil => rfl
  | cons p rest ih =>
    cases p
    simp only [List.cons_append, runLogFrom]
    exact ih _

theorem runLogSeq_concat (ds : Bool) (inps : List LogInput) (inp : LogInput) :
    runLogSeq ds (inps ++ [inp]) = log (runLogSeq ds inps) inps.length inp := by
  unfold runLogSeq
  have hlen : (inps ++ [inp]).length = inps.length + 1 := by simp
  rw [hlen, List.range_succ,
    List.zip_append (by simp), runLogFrom_append]
  rfl

/-! ### Running maximum lemmas -/

theorem runningMax_take_lt {inps : List LogInput} {t : ℕ} (a : LogInput)
    (h : t < inps.length) : runningMax (inps ++ [a]) t = runningMax inps t := by
  unfold runningMax
  rw [List.take_append_of_le_length (Nat.succ_le_of_lt h)]

theorem runningMax_full {inps : List LogInput} (hne : inps ≠ []) :
    runningMax inps (inps.length - 1) =
      maxQ (inps.map (fun inp => maxQ inp.rewards)) := by
  unfold runningMax
  have hpos : 0 < inps.length := List.length_pos.mpr hne
  have h1 : inps.length - 1 + 1 = inps.length := by omega
  rw [h1, List.take_length]

theorem runningMax_concat {inps : List LogInput} (a : LogInput) (hne : inps ≠ []) :
    runningMax (inps ++ [a]) inps.length =
      max (runningMax inps (inps.length - 1)) (maxQ a.rewards) := by
  rw [runningMax_full hne]
  unfold runningMax
  rw [List.take_of_length_le (by simp), List.map_append]
  simp only [List.map_cons, List.map_nil]
  rw [maxQ_concat (by simpa using hne)]

theorem runningMax_take {inps : List LogInput} {t k : ℕ} (h : t < k) :
    runningMax (inps.take k) t = runningMax inps t := by
  unfold runningMax
  rw [List.take_take, min_eq_left (Nat.succ_le_of_lt h)]

theorem runningMax_succ {inps : List LogInput} {t : ℕ} (h : t + 1 < inps.length) :
    runningMax inps (t + 1) =
      max (runningMax inps t) (maxQ ((inps.getD (t + 1) default).rewards)) := by
  unfold runningMax
  rw [take_concat_getD h, List.map_append]
  simp only [List.map_cons, List.map_nil]
  rw [maxQ_concat (by
    have hl : (List.map (fun inp => maxQ inp.rewards) (List.take (t + 1) inps)).length
        = t + 1 := by
      simp only [List.length_map, List.length_take]
      omega
    intro hcon
    rw [hcon] at hl
    simp at hl)]

/-- Invariant of the hall-of-fame / running-maximum bookkeeping of `log`,
established by induction over a standard run. -/
theorem runLogSeq_overall_inv (ds : Bool) (inps : List LogInput) (hne : inps ≠ []) :
    (runLogSeq ds inps).overall_max_R_history.length = inps.length ∧
    (∀ t, t < inps.length →
      (runLogSeq ds inps).overall_max_R_history.getD t 0 = runningMax inps t) ∧
    maxQ (runLogSeq ds inps).overall_max_R_history
      = runningMax inps (inps.length - 1) ∧
    ((runLogSeq ds inps).overall_max_R_history.getLast?).getD 0
      = runningMax inps (inps.length - 1) ∧
    ∃ e, e < inps.length ∧
      (runLogSeq ds inps).hall_of_fame.getLast? =
        some (e, argmaxQ ((inps.getD e default).rewards)) ∧
      maxQ ((inps.getD e default).rewards) = runningMax inps (inps.length - 1) := by
  induction inps using List.reverseRecOn with
  | nil => exact absurd rfl hne
  | append_singleton l a ih =>
    rcases eq_or_ne l [] with rfl | hl
    · refine ⟨rfl, fun t ht => ?_, rfl, rfl, 0, Nat.zero_lt_one, rfl, rfl⟩
      have h0 : t = 0 := by simpa [Nat.lt_one_iff] using ht
      subst h0
      rfl
    · obtain ⟨ih1, ih2, ih3, ih4, e, he, ihh, ihr⟩ := ih hl
      have hn0 : l.length ≠ 0 := by
        simpa using fun h => hl (List.length_eq_zero.mp h)
      have hnpos : 0 < l.length := Nat.pos_of_ne_zero hn0
      have homne : (runLogSeq ds l).overall_max_R_history ≠ [] := by
        intro hcon
        rw [hcon] at ih1
        exact hn0 ih1.symm
      have hlen1 : (l ++ [a]).length = l.length + 1 := by simp
      have hlsub : (l ++ [a]).length - 1 = l.length := by simp
      have hrm : runningMax (l ++ [a]) l.length =
          max (runningMax l (l.length - 1)) (maxQ a.rewards) := runningMax_concat a hl
      rw [runLogSeq_concat, log_overall, log_hof, if_neg hn0, if_neg hn0]
      by_cases hc : maxQ (runLogSeq ds l).overall_max_R_history < maxQ a.rewards
      · have hcr : runningMax l (l.length - 1) < maxQ a.rewards := by rwa [ih3] at hc
        have hmax : runningMax (l ++ [a]) l.length = maxQ a.rewards := by
          rw [hrm]; exact max_eq_right (le_of_lt hcr)
        rw [if_pos hc, if_pos hc]
        refine ⟨by simp [ih1], ?_, ?_, ?_, l.length, by simp, ?_, ?_⟩
        · intro t ht
          rw [hlen1] at ht
          rcases Nat.lt_or_ge t l.length with htl | htl
          · rw [List.getD_append _ _ _ _ (by rw [ih1]; exact htl),
              runningMax_take_lt a htl]
            exact ih2 t htl
          · have ht' : t = l.length := by omega
            subst ht'
            rw [← ih1, getD_concat_length, ih1, hmax]
        · rw [maxQ_concat homne, ih3, hlsub, hrm]
        · rw [List.getLast?_concat, hlsub, hmax]
          rfl
        · rw [List.getLast?_concat, getD_concat_length]
        · have hga : (l ++ [a]).getD l.length default = a := getD_concat_length l a default
          rw [hga, hlsub, hmax]
      · have hcr : maxQ a.rewards ≤ runningMax l (l.length - 1) := by
          rw [← ih3]; exact le_of_not_lt hc
        have hmax : runningMax (l ++ [a]) l.length = runningMax l (l.length - 1) := by
          rw [hrm]; exact max_eq_left hcr
        rw [if_neg hc, if_neg hc]
        refine ⟨by simp [ih1], ?_, ?_, ?_, e, by omega, ?_, ?_⟩
        · intro t ht
          rw [hlen1] at ht
          rcases Nat.lt_or_ge t l.length with htl | htl
          · rw [List.getD_append _ _ _ _ (by rw [ih1]; exact htl),
              runningMax_take_lt a htl]
            exact ih2 t htl
          · have ht' : t = l.length := by omega
            subst ht'
            rw [← ih1, getD_concat_length, ih1, ih4, hmax]
        · rw [maxQ_concat homne, ih3, ih4, hlsub, hmax, max_self]
        · rw [List.getLast?_concat, hlsub, hmax]
          exact ih4
        · rw [List.getD_append _ _ _ _ he]
          exact ihh
        · rw [List.getD_append _ _ _ _ he, hlsub, hmax]
          exact ihr

/-- One step of the hall-of-fame update: at epoch `t > 0` a program is
appended exactly when the epoch's maximum reward strictly exceeds the previous
running maximum. -/
theorem hof_growth (ds : Bool) (inps : List LogInput) {t : ℕ} (h0 : 0 < t)
    (ht : t < inps.length) :
    (runLogSeq ds (inps.take (t + 1))).hall_of_fame =
      (if runningMax inps (t - 1) < maxQ ((inps.getD t default).rewards) then
        (runLogSeq ds (inps.take t)).hall_of_fame ++
          [(t, argmaxQ ((inps.getD t default).rewards))]
      else (runLogSeq ds (inps.take t)).hall_of_fame) := by
  have htake : inps.take (t + 1) = inps.take t ++ [inps.getD t default] :=
    take_concat_getD ht
  have hlt : (inps.take t).length = t := by
    simp only [List.length_take]
    omega
  have hpre : inps.take t ≠ [] := by
    intro hcon
    rw [hcon] at hlt
    simp at hlt
    omega
  obtain ⟨_, _, p3, _, _⟩ := runLogSeq_overall_inv ds (inps.take t) hpre
  have hrtake : runningMax (inps.take t) (t - 1) = runningMax inps (t - 1) :=
    runningMax_take (by omega)
  rw [htake, runLogSeq_concat, hlt, log_hof, if_neg (by omega : t ≠ 0), p3, hlt,
    hrtake]

/-- C1: after the call for epoch `t` the overall-maximum history has exactly
`t + 1` entries, entry `t` is the running maximum of the per-epoch maximal
rewards over epochs `0..t` (hence nondecreasing), `best_prog` is a hall-of-fame
member whose reward attains that running maximum, and a program is appended to
the hall of fame exactly when the epoch's maximum strictly exceeds the previous
running maximum. -/
theorem C1_hall_of_fame (ds : Bool) (inps : List LogInput)
    (hwf : ∀ inp ∈ inps, inp.WF) (hne : inps ≠ []) :
    (runLogSeq ds inps).overall_max_R_history.length = inps.length ∧
    (∀ t, t < inps.length →
      (runLogSeq ds inps).overall_max_R_history.getD t 0 = runningMax inps t) ∧
    (∀ t, t + 1 < inps.length →
      (runLogSeq ds inps).overall_max_R_history.getD t 0 ≤
        (runLogSeq ds inps).overall_max_R_history.getD (t + 1) 0) ∧
    (∃ p, best_prog (runLogSeq ds inps) = some p ∧
      p ∈ (runLogSeq ds inps).hall_of_fame ∧
      progReward inps p = runningMax inps (inps.length - 1)) ∧
    (∀ t, 0 < t → t < inps.length →
      ((runLogSeq ds (inps.take (t + 1))).hall_of_fame.length =
          (runLogSeq ds (inps.take t)).hall_of_fame.length + 1 ↔
        runningMax inps (t - 1) < maxQ ((inps.getD t default).rewards)) ∧
      (¬ runningMax inps (t - 1) < maxQ ((inps.getD t default).rewards) →
        (runLogSeq ds (inps.take (t + 1))).hall_of_fame =
          (runLogSeq ds (inps.take t)).hall_of_fame)) := by
  obtain ⟨i1, i2, _, _, e, he, ihall, irew⟩ := runLogSeq_overall_inv ds inps hne
  refine ⟨i1, i2, ?_, ?_, ?_⟩
  · intro t ht
    rw [i2 t (by omega), i2 (t + 1) ht, runningMax_succ ht]
    exact le_max_left _ _
  · refine ⟨(e, argmaxQ ((inps.getD e default).rewards)), ihall, ?_, ?_⟩
    · exact mem_of_getLast?_eq ihall
    · have hmem : inps.getD e default ∈ inps := by
        rw [List.getD_eq_getElem _ _ he]
        exact List.getElem_mem he
      have hwe := hwf _ hmem
      have hrne : (inps.getD e default).rewards ≠ [] := by
        have hlen : (inps.getD e default).rewards.length =
            (inps.getD e default).batch_size := hwe.2.1
        intro hcon
        rw [hcon] at hlen
        exact absurd hlen.symm (Nat.ne_of_gt hwe.1)
      show ((inps.getD e default).rewards).getD _ 0 = _
      rw [getD_argmaxQ hrne]
      exact irew
  · intro t h0 ht
    rw [hof_growth ds inps h0 ht]
    by_cases hc : runningMax inps (t - 1) < maxQ ((inps.getD t default).rewards)
    · rw [if_pos hc]
      refine ⟨⟨fun _ => hc, fun _ => by simp⟩, fun hcon => absurd hc hcon⟩
    · rw [if_neg hc]
      constructor
      · constructor
        · intro hlen
          omega
        · intro hcon
          exact absurd hcon hc
      · intro _
        rfl

/-- C6: every `log` call appends exactly one element to each per-epoch history
list, so after `n` calls following `initialize` all of them have length `n`,
and `epochs_history` records the epochs in call order. -/
theorem C6_per_epoch_histories (ds : Bool) (inps : List LogInput)
    (_hwf : ∀ inp ∈ inps, inp.WF) :
    (∀ (s : LoggerState) (epoch : ℕ) (inp : LogInput),
      (log s epoch inp).epochs_history = s.epochs_history ++ [epoch] ∧
      (∃ x, (log s epoch inp).loss_history = s.loss_history ++ [x]) ∧
      (∃ x, (log s epoch inp).mean_R_train_history = s.mean_R_train_history ++ [x]) ∧
      (∃ x, (log s epoch inp).mean_R_history = s.mean_R_history ++ [x]) ∧
      (∃ x, (log s epoch inp).max_R_history = s.max_R_history ++ [x]) ∧
      (∃ x, (log s epoch inp).R_history = s.R_history ++ [x]) ∧
      (∃ x, (log s epoch inp).R_history_train = s.R_history_train ++ [x]) ∧
      (∃ x, (log s epoch inp).best_prog_complexity_history =
        s.best_prog_complexity_history ++ [x]) ∧
      (∃ x, (log s epoch inp).mean_complexity_history =
        s.mean_complexity_history ++ [x]) ∧
      (∃ x, (log s epoch inp).n_physical = s.n_physical ++ [x]) ∧
      (∃ x, (log s epoch inp).lengths_of_physical = s.lengths_of_physical ++ [x]) ∧
      (∃ x, (log s epoch inp).lengths_of_unphysical =
        s.lengths_of_unphysical ++ [x])) ∧
    (runLogSeq ds inps).epochs_history = List.range inps.length ∧
    (runLogSeq ds inps).loss_history.length = inps.length ∧
    (runLogSeq ds inps).mean_R_train_history.length = inps.length ∧
    (runLogSeq ds inps).mean_R_history.length = inps.length ∧
    (runLogSeq ds inps).max_R_history.length = inps.length ∧
    (runLogSeq ds inps).R_history.length = inps.length ∧
    (runLogSeq ds inps).R_history_train.length = inps.length ∧
    (runLogSeq ds inps).best_prog_complexity_history.length = inps.length ∧
    (runLogSeq ds inps).mean_complexity_history.length = inps.length ∧
    (runLogSeq ds inps).n_physical.length = inps.length ∧
    (runLogSeq ds inps).lengths_of_physical.length = inps.length ∧
    (runLogSeq ds inps).lengths_of_unphysical.length = inps.length := by
  refine ⟨fun s epoch inp => ⟨rfl, ⟨_, rfl⟩, ⟨_, rfl⟩, ⟨_, rfl⟩, ⟨_, rfl⟩, ⟨_, rfl⟩,
    ⟨_, rfl⟩, ⟨_, rfl⟩, ⟨_, rfl⟩, ⟨_, rfl⟩, ⟨_, rfl⟩, ⟨_, rfl⟩⟩, ?_⟩
  clear _hwf
  induction inps using List.reverseRecOn with
  | nil => exact ⟨rfl, rfl, rfl, rfl, rfl, rfl, rfl, rfl, rfl, rfl, rfl, rfl⟩
  | append_singleton l a ih =>
    obtain ⟨e1, e2, e3, e4, e5, e6, e7, e8, e9, e10, e11, e12⟩ := ih
    rw [runLogSeq_concat]
    refine ⟨?_, ?_, ?_, ?_, ?_, ?_, ?_, ?_, ?_, ?_, ?_, ?_⟩ <;>
      simp [log, e1, e2, e3, e4, e5, e6, e7, e8, e9, e10, e11, e12, List.range_succ]

/-- C4: with `do_save` set, every `log` call appends exactly `batch_size` rows
to the CSV, one per program, carrying epoch, reward, complexity, length,
physicality, eliteness (true exactly on `keep`) and the program; the epoch-0
call first recreates the file holding only the header (modelled as `[]`). -/
theorem C4_csv_rows (s : LoggerState) (epoch : ℕ) (inp : LogInput)
    (hsave : s.do_save = true) (_hwf : inp.WF) :
    (log s epoch inp).csv =
      (if epoch = 0 then [] else s.csv) ++ batchRows epoch inp ∧
    (batchRows epoch inp).length = inp.batch_size ∧
    ∀ j, j < inp.batch_size →
      (batchRows epoch inp).getD j default =
        { epoch := epoch
          reward := inp.rewards.getD j 0
          complexity := inp.complexity.getD j 0
          length := inp.lengths.getD j 0
          is_phys := inp.is_phys.getD j false
          is_elite := inp.keep.contains j
          program := (epoch, j) } ∧
      (((batchRows epoch inp).getD j default).is_elite = true ↔ j ∈ inp.keep) := by
  refine ⟨?_, by simp [batchRows], ?_⟩
  · rw [log_csv, hsave]
    rfl
  · intro j hj
    have hjl : j < (batchRows epoch inp).length := by simpa [batchRows] using hj
    have hrow : (batchRows epoch inp).getD j default =
        { epoch := epoch
          reward := inp.rewards.getD j 0
          complexity := inp.complexity.getD j 0
          length := inp.lengths.getD j 0
          is_phys := inp.is_phys.getD j false
          is_elite := inp.keep.contains j
          program := (epoch, j) } := by
      rw [List.getD_eq_getElem _ _ hjl]
      unfold batchRows
      rw [List.getElem_map]
      simp
    exact ⟨hrow, by rw [hrow]; exact List.elem_iff⟩

/-- C5: with the external plotting succeeding, `visualise` renders (showing
when `do_show`, saving when `do_save`) exactly at the epochs that are
multiples of `epoch_refresh_rate`, stores only the references on other epochs,
and additionally creates the figure at epoch 0. -/
theorem C5_visualise_schedule (v : RVState) (epoch : ℕ)
    (_hrate : 0 < v.epoch_refresh_rate) :
    visualise v epoch true true true = Except.ok
      (VisEvent.storeRefs ::
        ((if epoch = 0 then [VisEvent.initFig] else []) ++
          (if v.epoch_refresh_rate ∣ epoch then
            (if v.do_show then [VisEvent.makeVis] else []) ++
              (if v.do_save then [VisEvent.saveVis] else [])
          else []))) := by
  have hmod : epoch % v.epoch_refresh_rate = 0 ↔ v.epoch_refresh_rate ∣ epoch :=
    Nat.dvd_iff_mod_eq_zero.symm
  by_cases h0 : epoch = 0
  · have hdvd : v.epoch_refresh_rate ∣ epoch := h0 ▸ dvd_zero _
    by_cases hshow : v.do_show <;>
      by_cases hsave : v.do_save <;>
        simp [visualise, tryRender, h0, hdvd, hshow, hsave, hmod]
  · by_cases hdvd : v.epoch_refresh_rate ∣ epoch <;>
      by_cases hshow : v.do_show <;>
        by_cases hsave : v.do_save <;>
          simp [visualise, tryRender, h0, hdvd, hshow, hsave, hmod]

/-- C9: constructing a `RunVisualiser` with `save_path = None` raises whatever
the other arguments are, in particular even with `do_save = False`, because
`save_path_log` is derived from `save_path` unconditionally in `__init__`. -/
theorem C9_init_requires_save_path (rate : ℕ) (do_show do_save : Bool) :
    runVisualiserInit rate none do_show do_save =
      Except.error "AttributeError: NoneType object has no attribute split" := rfl

/-- C10: on rendering epochs a raise inside `make_visualisation` or
`save_visualisation` is caught and replaced by the printed message, so
`visualise` returns normally for every outcome of the plotting calls (the
epoch-0 figure creation is outside this protection, hence the hypothesis). -/
theorem C10_visualise_catches (v : RVState) (epoch : ℕ)
    (initOk makeOk saveOk : Bool) (hinit : epoch = 0 → initOk = true) :
    (visualise v epoch initOk makeOk saveOk).isOk = true ∧
    (epoch % v.epoch_refresh_rate = 0 →
      tryRender v makeOk saveOk = Except.error () →
      visualise v epoch initOk makeOk saveOk = Except.ok
        (VisEvent.storeRefs ::
          ((if epoch = 0 then [VisEvent.initFig] else []) ++
            [VisEvent.printFailMsg]))) := by
  by_cases h0 : epoch = 0
  · have hi := hinit h0
    subst hi
    constructor
    · cases htr : tryRender v makeOk saveOk <;>
        simp [visualise, h0, htr, Except.isOk, Except.toBool]
    · intro hmod htr
      simp [visualise, h0, htr, hmod]
  · constructor
    · cases htr : tryRender v makeOk saveOk <;>
        simp [visualise, h0, htr, Except.isOk, Except.toBool]
    · intro hmod htr
      simp [visualise, h0, htr, hmod]

/-! ### Pareto grid lemmas -/

theorem argmaxAt_getD {rewards : List ℚ} {idxs : List ℕ} (h : idxs ≠ []) :
    rewards.getD (argmaxAt rewards idxs) 0 =
      maxQ (idxs.map (fun j => rewards.getD j 0)) := by
  unfold argmaxAt
  have hvne : idxs.map (fun j => rewards.getD j 0) ≠ [] := by
    simp only [ne_eq, List.map_eq_nil_iff]
    exact h
  have hlt : argmaxQ (idxs.map (fun j => rewards.getD j 0)) <
      (idxs.map (fun j => rewards.getD j 0)).length := argmaxQ_lt_length hvne
  have hlen : (idxs.map (fun j => rewards.getD j 0)).length = idxs.length := by simp
  have hx : rewards.getD
        (idxs.getD (argmaxQ (idxs.map (fun j => rewards.getD j 0))) 0) 0 =
      (idxs.map (fun j => rewards.getD j 0)).getD
        (argmaxQ (idxs.map (fun j => rewards.getD j 0))) 0 := by
    rw [List.getD_eq_getElem idxs _ (by omega), List.getD_eq_getElem _ _ hlt,
      List.getElem_map]
  rw [hx, getD_argmaxQ hvne]

theorem paretoCell_fst (epoch : ℕ) (comps rewards : List ℚ) (c : ℕ)
    (cell : Option ℚ × Option Prog) :
    (paretoCell epoch comps rewards c cell).1 =
      match listMaxO ((idxAtBin comps (c : ℤ)).map (fun j => rewards.getD j 0)),
          cell.1 with
      | none, old => old
      | some m, none => some m
      | some m, some v => some (max v m) := by
  obtain ⟨c1, c2⟩ := cell
  unfold paretoCell
  rcases hidx : idxAtBin comps (c : ℤ) with _ | ⟨k, ks⟩
  · rcases c1 with _ | v <;> simp [listMaxO]
  · rw [if_neg (by simp)]
    have hr : rewards.getD (argmaxAt rewards (k :: ks)) 0 =
        maxQ ((k :: ks).map (fun j => rewards.getD j 0)) :=
      argmaxAt_getD (by simp)
    rcases c1 with _ | v
    · show some (rewards.getD (argmaxAt rewards (k :: ks)) 0) =
        some (maxQ ((k :: ks).map (fun j => rewards.getD j 0)))
      exact congrArg some hr
    · show (if v ≤ rewards.getD (argmaxAt rewards (k :: ks)) 0 then
          (some (rewards.getD (argmaxAt rewards (k :: ks)) 0),
           some (epoch, argmaxAt rewards (k :: ks)))
        else ((some v : Option ℚ), c2)).1 =
        some (max v (maxQ ((k :: ks).map (fun j => rewards.getD j 0))))
      by_cases hle : v ≤ maxQ ((k :: ks).map (fun j => rewards.getD j 0))
      · rw [if_pos (show v ≤ rewards.getD (argmaxAt rewards (k :: ks)) 0 by
          rw [hr]; exact hle), max_eq_right hle]
        exact congrArg some hr
      · rw [if_neg (show ¬ v ≤ rewards.getD (argmaxAt rewards (k :: ks)) 0 by
          rw [hr]; exact hle), max_eq_left (le_of_not_le hle)]

theorem pareto_logger_pc (epoch mts : ℕ) (comps rewards : List ℚ)
    (pc : List ℕ) (pr : List (Option ℚ)) (pp : List (Option Prog)) :
    (pareto_logger epoch mts comps rewards pc pr pp).1 =
      if epoch = 0 then List.range (10 * mts) else pc := rfl

theorem pareto_logger_r_length (epoch mts : ℕ) (comps rewards : List ℚ)
    (pc : List ℕ) (pr : List (Option ℚ)) (pp : List (Option Prog)) :
    (pareto_logger epoch mts comps rewards pc pr pp).2.1.length =
      (if epoch = 0 then List.range (10 * mts) else pc).length := by
  unfold pareto_logger
  simp

theorem cells_map_getD (epoch : ℕ) (comps rewards : List ℚ)
    (pc : List ℕ) (pr : List (Option ℚ)) (pp : List (Option Prog))
    {i : ℕ} (hi : i < pc.length) :
    ((pc.enum.map (fun ic =>
        paretoCell epoch comps rewards ic.2
          (pr.getD ic.1 none, pp.getD ic.1 none))).map Prod.fst).getD i none =
      (paretoCell epoch comps rewards (pc.getD i 0)
        (pr.getD i none, pp.getD i none)).1 := by
  have hlen : ((pc.enum.map (fun ic =>
      paretoCell epoch comps rewards ic.2
        (pr.getD ic.1 none, pp.getD ic.1 none))).map Prod.fst).length = pc.length := by
    simp
  rw [List.getD_eq_getElem _ _ (by rw [hlen]; exact hi), List.getElem_map,
    List.getElem_map, List.getElem_enum]
  congr 1
  rw [List.getD_eq_getElem _ _ hi]

theorem pareto_logger_r_getD (epoch mts : ℕ) (comps rewards : List ℚ)
    (pc : List ℕ) (pr : List (Option ℚ)) (pp : List (Option Prog))
    (hep : epoch ≠ 0) {i : ℕ} (hi : i < pc.length) :
    (pareto_logger epoch mts comps rewards pc pr pp).2.1.getD i none =
      (paretoCell epoch comps rewards (pc.getD i 0)
        (pr.getD i none, pp.getD i none)).1 := by
  unfold pareto_logger
  simp only [if_neg hep]
  exact cells_map_getD epoch comps rewards pc pr pp hi

theorem pareto_logger_r_getD_zero (mts : ℕ) (comps rewards : List ℚ)
    (pc : List ℕ) (pr : List (Option ℚ)) (pp : List (Option Prog))
    {i : ℕ} (hi : i < 10 * mts) :
    (pareto_logger 0 mts comps rewards pc pr pp).2.1.getD i none =
      (paretoCell 0 comps rewards i (none, none)).1 := by
  have h := cells_map_getD 0 comps rewards (List.range (10 * mts))
    (List.replicate (10 * mts) none) (List.replicate (10 * mts) none)
    (i := i) (by simpa using hi)
  rw [getD_range hi, getD_replicate hi, getD_replicate hi] at h
  exact h

theorem listMaxO_append (l1 l2 : List ℚ) :
    listMaxO (l1 ++ l2) =
      match listMaxO l1, listMaxO l2 with
      | none, o => o
      | some m, none => some m
      | some m, some m2 => some (max m m2) := by
  rcases l1 with _ | ⟨x, xs⟩
  · rcases l2 with _ | ⟨y, ys⟩ <;> simp [listMaxO]
  · rcases l2 with _ | ⟨y, ys⟩
    · simp [listMaxO]
    · simp only [listMaxO]
      rw [maxQ_append (by simp) (by simp)]
      rfl

theorem binRewards_concat (inps : List LogInput) (a : LogInput) (i : ℕ) :
    binRewards (inps ++ [a]) i =
      binRewards inps i ++
        (idxAtBin a.complexity (i : ℤ)).map (fun j => a.rewards.getD j 0) := by
  unfold binRewards
  rw [List.map_append, List.flatten_append]
  simp

/-- Invariant of the Pareto reward grid over a standard run: the complexity
grid spans `0 .. 10*max_time_step - 1` (as set at epoch 0), and every cell
holds the best reward ever seen at its complexity bin, `none` (NaN) when the
bin is untouched. -/
theorem runLogSeq_pareto_inv (ds : Bool) (inps : List LogInput) (hne : inps ≠ []) :
    (runLogSeq ds inps).pareto_complexities =
      List.range (10 * (inps.headD default).maxTimeStep) ∧
    (runLogSeq ds inps).pareto_rewards.length =
      10 * (inps.headD default).maxTimeStep ∧
    ∀ i, i < 10 * (inps.headD default).maxTimeStep →
      (runLogSeq ds inps).pareto_rewards.getD i none =
        listMaxO (binRewards inps i) := by
  induction inps using List.reverseRecOn with
  | nil => exact absurd rfl hne
  | append_singleton l a ih =>
    rcases eq_or_ne l [] with rfl | hl
    · rw [List.nil_append]
      simp only [List.headD_cons]
      refine ⟨rfl, by simp [runLogSeq, runLogFrom, log, pareto_logger], ?_⟩
      intro i hi
      have hz : runLogSeq ds [a] = log (initLogger ds) 0 a := rfl
      rw [hz, log_pareto_r, pareto_logger_r_getD_zero _ _ _ _ _ _ hi,
        paretoCell_fst]
      have hbin : binRewards [a] i =
          (idxAtBin a.complexity (i : ℤ)).map (fun j => a.rewards.getD j 0) := by
        unfold binRewards
        simp
      rw [hbin]
      rcases hmo : listMaxO ((idxAtBin a.complexity (i : ℤ)).map
          (fun j => a.rewards.getD j 0)) with _ | m <;> simp
    · obtain ⟨ip, il, iv⟩ := ih hl
      have hhead : (l ++ [a]).headD default = l.headD default := by
        rcases l with _ | ⟨x, xs⟩
        · exact absurd rfl hl
        · rfl
      have hn0 : l.length ≠ 0 := fun h => hl (List.length_eq_zero.mp h)
      rw [hhead, runLogSeq_concat, log_pareto_c, log_pareto_r,
        pareto_logger_pc, if_neg hn0]
      refine ⟨ip, ?_, ?_⟩
      · rw [pareto_logger_r_length, if_neg hn0, ip]
        simp
      · intro i hi
        have hipc : i < (runLogSeq ds l).pareto_complexities.length := by
          rw [ip]
          simpa using hi
        rw [pareto_logger_r_getD _ _ _ _ _ _ _ hn0 hipc, paretoCell_fst]
        have hpci : (runLogSeq ds l).pareto_complexities.getD i 0 = i := by
          rw [ip]
          exact getD_range hi _
        rw [hpci, iv i hi, binRewards_concat, listMaxO_append]
        rcases h1 : listMaxO (binRewards l i) with _ | v <;>
          rcases h2 : listMaxO ((idxAtBin a.complexity (i : ℤ)).map
            (fun j => a.rewards.getD j 0)) with _ | m <;> simp

/-- C2: after any standard run, the Pareto grid spans bins
`0 .. 10*max_time_step - 1` and each cell holds the maximum reward over all
programs of all logged epochs whose rounded complexity equals the bin, `none`
(NaN) when no such program was seen; `pareto_logger` re-establishes this at
every call (the statement quantifies over every run). -/
theorem C2_pareto_rewards_invariant (ds : Bool) (inps : List LogInput)
    (_hwf : ∀ inp ∈ inps, inp.WF) (hne : inps ≠ []) :
    (runLogSeq ds inps).pareto_complexities =
      List.range (10 * (inps.headD default).maxTimeStep) ∧
    (runLogSeq ds inps).pareto_rewards.length =
      10 * (inps.headD default).maxTimeStep ∧
    ∀ i, i < 10 * (inps.headD default).maxTimeStep →
      (runLogSeq ds inps).pareto_rewards.getD i none =
        listMaxO (binRewards inps i) :=
  runLogSeq_pareto_inv ds inps hne

/-! ### Cost bounds -/

theorem sum_map_bounds (l : List ℕ) (f : ℕ → ℕ) (a b : ℕ)
    (h : ∀ x ∈ l, a ≤ f x ∧ f x ≤ b) :
    l.length * a ≤ (l.map f).sum ∧ (l.map f).sum ≤ l.length * b := by
  induction l with
  | nil => simp
  | cons x xs ih =>
    obtain ⟨iha, ihb⟩ := ih (fun y hy => h y (List.mem_cons_of_mem _ hy))
    obtain ⟨hxa, hxb⟩ := h x (List.mem_cons_self _ _)
    constructor
    · simp only [List.map_cons, List.sum_cons, List.length_cons]
      calc (xs.length + 1) * a = a + xs.length * a := by ring
      _ ≤ f x + (xs.map f).sum := Nat.add_le_add hxa iha
    · simp only [List.map_cons, List.sum_cons, List.length_cons]
      calc f x + (xs.map f).sum ≤ b + xs.length * b := Nat.add_le_add hxb ihb
      _ = (xs.length + 1) * b := by ring

/-- C7 (amended): `pareto_logger` is not a single pass over the batch: it
performs one full scan of the batch complexities per complexity bin, so its
element reads lie between `bins * batch_size` and `2 * bins * batch_size`;
`get_pareto_front` on the other hand reads at most `2 *` the number of grid
cells (one masking pass plus the scan of the valid candidates). -/
theorem C7_cost_bounds :
    (∀ mts : ℕ, ∀ comps : List ℚ, ∀ pc : List ℕ,
      10 * mts * comps.length ≤ pareto_logger_cost 0 mts comps pc ∧
      pareto_logger_cost 0 mts comps pc ≤ 2 * (10 * mts * comps.length)) ∧
    (∀ pc : List ℕ, ∀ pr : List (Option ℚ), ∀ pp : List (Option Prog),
      get_pareto_front_cost pc pr pp ≤ 2 * pr.length) := by
  constructor
  · intro mts comps pc
    unfold pareto_logger_cost
    simp only [if_pos rfl]
    have hb := sum_map_bounds (List.range (10 * mts))
      (fun c => paretoCellCost comps c) comps.length (2 * comps.length)
      (fun c _ => by
        show comps.length ≤ paretoCellCost comps c ∧
          paretoCellCost comps c ≤ 2 * comps.length
        unfold paretoCellCost
        constructor
        · omega
        · have hf : (idxAtBin comps (c : ℤ)).length ≤ comps.length := by
            unfold idxAtBin
            calc ((List.range comps.length).filter _).length ≤
                (List.range comps.length).length := List.length_filter_le _ _
            _ = comps.length := List.length_range _
          omega)
    rw [List.length_range] at hb
    constructor
    · calc 10 * mts * comps.length ≤ ((List.range (10 * mts)).map
          (fun c => paretoCellCost comps c)).sum := hb.1
      _ = _ := rfl
    · calc ((List.range (10 * mts)).map (fun c => paretoCellCost comps c)).sum ≤
          10 * mts * (2 * comps.length) := hb.2
      _ = 2 * (10 * mts * comps.length) := by ring
  · intro pc pr pp
    unfold get_pareto_front_cost
    have hv : (validCands pc pr pp).length ≤ pr.length := by
      unfold validCands
      calc ((List.range pr.length).filterMap _).length ≤
          (List.range pr.length).length := List.length_filterMap_le _ _
      _ = pr.length := List.length_range _
    omega

/-- C7 counterexample: with the batch arrays held at length 2, the number of
element reads of `pareto_logger` grows with the number of complexity bins
(22 at `max_time_step = 1`, 2002 at `max_time_step = 100`), so the update is
not a single `O(batch_size)` pass over its input arrays. -/
theorem C7_counterexample :
    pareto_logger_cost 0 1 [3, 4] [] = 22 ∧
    pareto_logger_cost 0 100 [3, 4] [] = 2002 ∧
    ([3, 4] : List ℚ).length = 2 ∧ (22 : ℕ) ≠ 2002 := by
  refine ⟨by decide, ?_, rfl, by decide⟩
  set_option maxRecDepth 8192 in decide

theorem listMaxO_ne_nil {l : List ℚ} (h : l ≠ []) : listMaxO l = some (maxQ l) := by
  rcases l with _ | ⟨x, xs⟩
  · exact absurd rfl h
  · rfl

theorem validCands_eq_nil_iff (pc : List ℕ) (pr : List (Option ℚ))
    (pp : List (Option Prog)) :
    validCands pc pr pp = [] ↔
      ∀ i, i < pr.length → ∀ r, pr.getD i none = some r → r ≤ 0 := by
  unfold validCands
  rw [List.filterMap_eq_nil_iff]
  constructor
  · intro h i hi r hr
    have hz := h i (List.mem_range.mpr hi)
    rw [hr] at hz
    have hz2 : (if 0 < r then
        some (⟨pc.getD i 0, pp.getD i none, r⟩ : Cand) else none) = none := hz
    by_contra hpos
    rw [if_pos (lt_of_not_le hpos)] at hz2
    exact Option.some_ne_none _ hz2
  · intro h i hi
    rcases hg : pr.getD i none with _ | r
    · rfl
    · have hn : ¬ 0 < r := not_lt.mpr (h i (List.mem_range.mp hi) r hg)
      show (if 0 < r then
        some (⟨pc.getD i 0, pp.getD i none, r⟩ : Cand) else none) = none
      rw [if_neg hn]

theorem get_pareto_front_none_iff (pc : List ℕ) (pr : List (Option ℚ))
    (pp : List (Option Prog)) (ystd : ℚ) :
    get_pareto_front pc pr pp ystd = none ↔ validCands pc pr pp = [] := by
  unfold get_pareto_front
  rcases hv : validCands pc pr pp with _ | ⟨v, vs⟩ <;> simp

/-- Input exhibiting the C8 counterexample: a single program with positive
reward whose complexity (20) rounds outside the grid spanned by
`10 * max_time_step = 10`. -/
def cexInp : LogInput := ⟨1, [1], [20], [1], [true], 1, [0], [], 0⟩

/-- C8 counterexample: a program with reward `1 > 0` has been logged, yet
`get_pareto_front` still fails (returns `none`), because the program's rounded
complexity lies outside the complexity grid; this falsifies "succeeds whenever
at least one program with reward > 0 has been logged". -/
theorem C8_counterexample :
    (∃ inp ∈ [cexInp], ∃ j, j < inp.rewards.length ∧ 0 < inp.rewards.getD j 0) ∧
    get_pareto_front (runLogSeq false [cexInp]).pareto_complexities
      (runLogSeq false [cexInp]).pareto_rewards
      (runLogSeq false [cexInp]).pareto_programs 1 = none := by
  constructor
  · exact ⟨cexInp, by decide, 0, by decide, by decide⟩
  · rfl

/-- C8 (amended): `get_pareto_front` fails (returns `none`, an `IndexError` in
the source) exactly when no grid cell holds a non-NaN reward strictly greater
than 0; in particular it fails before the first `log` call, and it succeeds
whenever a program with reward > 0 whose rounded complexity falls inside the
grid has been logged. -/
theorem C8_failure_iff :
    (∀ pc : List ℕ, ∀ pr : List (Option ℚ), ∀ pp : List (Option Prog), ∀ ystd : ℚ,
      get_pareto_front pc pr pp ystd = none ↔
        ∀ i, i < pr.length → ∀ r, pr.getD i none = some r → r ≤ 0) ∧
    (∀ ds : Bool, ∀ ystd : ℚ,
      get_pareto_front (initLogger ds).pareto_complexities
        (initLogger ds).pareto_rewards (initLogger ds).pareto_programs ystd
        = none) ∧
    (∀ ds : Bool, ∀ inps : List LogInput, ∀ ystd : ℚ,
      (∀ inp ∈ inps, inp.WF) → inps ≠ [] →
      (∃ inp ∈ inps, ∃ j, j < inp.complexity.length ∧ 0 < inp.rewards.getD j 0 ∧
        0 ≤ npRound (inp.complexity.getD j 0) ∧
        npRound (inp.complexity.getD j 0) <
          10 * (inps.headD default).maxTimeStep) →
      (get_pareto_front (runLogSeq ds inps).pareto_complexities
        (runLogSeq ds inps).pareto_rewards
        (runLogSeq ds inps).pareto_programs ystd).isSome = true) := by
  refine ⟨?_, fun ds ystd => rfl, ?_⟩
  · intro pc pr pp ystd
    rw [get_pareto_front_none_iff]
    exact validCands_eq_nil_iff pc pr pp
  · intro ds inps ystd hwf hne hex
    obtain ⟨inp, hmem, j, hj, hr, h0, hlt⟩ := hex
    obtain ⟨ipc, ilen, iv⟩ := runLogSeq_pareto_inv ds inps hne
    have hii : (((npRound (inp.complexity.getD j 0)).toNat : ℕ) : ℤ) =
        npRound (inp.complexity.getD j 0) := Int.toNat_of_nonneg h0
    have hilt : (npRound (inp.complexity.getD j 0)).toNat <
        10 * (inps.headD default).maxTimeStep := by omega
    have hmemr : inp.rewards.getD j 0 ∈
        binRewards inps (npRound (inp.complexity.getD j 0)).toNat := by
      unfold binRewards
      rw [List.mem_flatten]
      refine ⟨(idxAtBin inp.complexity
          ((npRound (inp.complexity.getD j 0)).toNat : ℤ)).map
            (fun j2 => inp.rewards.getD j2 0),
        List.mem_map_of_mem _ hmem, ?_⟩
      apply List.mem_map_of_mem
      unfold idxAtBin
      rw [List.mem_filter]
      refine ⟨List.mem_range.mpr hj, ?_⟩
      rw [hii]
      simp
    have hbne : binRewards inps (npRound (inp.complexity.getD j 0)).toNat ≠ [] :=
      List.ne_nil_of_mem hmemr
    have hval : (runLogSeq ds inps).pareto_rewards.getD
        (npRound (inp.complexity.getD j 0)).toNat none =
        some (maxQ (binRewards inps (npRound (inp.complexity.getD j 0)).toNat)) := by
      rw [iv _ hilt]
      exact listMaxO_ne_nil hbne
    have hpos : 0 < maxQ (binRewards inps (npRound (inp.complexity.getD j 0)).toNat) :=
      lt_of_lt_of_le hr (le_maxQ hmemr)
    have hvne : validCands (runLogSeq ds inps).pareto_complexities
        (runLogSeq ds inps).pareto_rewards
        (runLogSeq ds inps).pareto_programs ≠ [] := by
      intro hcon
      have hle := (validCands_eq_nil_iff _ _ _).mp hcon
        (npRound (inp.complexity.getD j 0)).toNat (by rw [ilen]; exact hilt) _ hval
      exact absurd hle (not_le.mpr hpos)
    unfold get_pareto_front
    rcases hv : validCands (runLogSeq ds inps).pareto_complexities
        (runLogSeq ds inps).pareto_rewards
        (runLogSeq ds inps).pareto_programs with _ | ⟨v, vs⟩
    · exact absurd hv hvne
    · rfl

/-! ### Pareto front scan lemmas -/

/-- Specification form of the `get_pareto_front` scan: keep a candidate when
its reward strictly exceeds the running maximum `m` of the kept rewards. -/
def frontSpec (m : ℚ) : List Cand → List Cand
  | [] => []
  | v :: rest => if m < v.r then v :: frontSpec v.r rest else frontSpec m rest

theorem lastD_cons (v : Cand) (F : List Cand) (m : ℚ) :
    (((v :: F).getLast?).map Cand.r).getD m = ((F.getLast?).map Cand.r).getD v.r := by
  rcases F with _ | ⟨w, ws⟩
  · rfl
  · rw [List.getLast?_cons_cons]
    rw [List.getLast?_eq_getLast_of_ne_nil (l := w :: ws) (by simp)]
    rfl

theorem frontGo_eq_spec (cands : List Cand) :
    ∀ acc : List Cand, acc ≠ [] →
      frontGo acc cands = acc ++ frontSpec (((acc.getLast?).map Cand.r).getD 0) cands := by
  induction cands with
  | nil => intro acc _; simp [frontGo, frontSpec]
  | cons v rest ih =>
    intro acc hacc
    rw [frontGo, frontSpec]
    by_cases hc : ((acc.getLast?).map Cand.r).getD 0 < v.r
    · rw [if_pos hc, if_pos hc, ih (acc ++ [v]) (by simp)]
      rw [List.getLast?_concat]
      simp [List.append_assoc]
    · rw [if_neg hc, if_neg hc, ih acc hacc]

theorem frontSpec_sublist (cands : List Cand) :
    ∀ m, List.Sublist (frontSpec m cands) cands := by
  induction cands with
  | nil => intro m; simp [frontSpec]
  | cons v rest ih =>
    intro m
    rw [frontSpec]
    by_cases hc : m < v.r
    · rw [if_pos hc]
      exact (ih v.r).cons₂ v
    · rw [if_neg hc]
      exact (ih m).cons v

theorem frontSpec_mem_lt (cands : List Cand) :
    ∀ m, ∀ v ∈ frontSpec m cands, m < v.r := by
  induction cands with
  | nil => intro m v hv; simp [frontSpec] at hv
  | cons u rest ih =>
    intro m v hv
    rw [frontSpec] at hv
    by_cases hc : m < u.r
    · rw [if_pos hc] at hv
      rcases List.mem_cons.mp hv with rfl | hm
      · exact hc
      · exact lt_trans hc (ih u.r v hm)
    · rw [if_neg hc] at hv
      exact ih m v hv

theorem frontSpec_chain (cands : List Cand) :
    ∀ m, List.Chain' (fun a b => a.r < b.r) (frontSpec m cands) := by
  induction cands with
  | nil => intro m; simp [frontSpec]
  | cons u rest ih =>
    intro m
    rw [frontSpec]
    by_cases hc : m < u.r
    · rw [if_pos hc]
      refine List.chain'_cons'.mpr ⟨?_, ih u.r⟩
      intro b hb
      exact frontSpec_mem_lt rest u.r b (List.mem_of_mem_head? hb)
    · rw [if_neg hc]
      exact ih m

theorem frontSpec_foldl (cands : List Cand) :
    ∀ m, List.foldl max m (cands.map Cand.r) =
      (((frontSpec m cands).getLast?).map Cand.r).getD m := by
  induction cands with
  | nil => intro m; simp [frontSpec]
  | cons v rest ih =>
    intro m
    rw [frontSpec]
    by_cases hc : m < v.r
    · rw [if_pos hc]
      simp only [List.map_cons, List.foldl_cons]
      rw [max_eq_right (le_of_lt hc), ih v.r, lastD_cons]
    · rw [if_neg hc]
      simp only [List.map_cons, List.foldl_cons]
      rw [max_eq_left (le_of_not_lt hc), ih m]

theorem frontSpec_append (l1 l2 : List Cand) :
    ∀ m, frontSpec m (l1 ++ l2) =
      frontSpec m l1 ++
        frontSpec ((((frontSpec m l1).getLast?).map Cand.r).getD m) l2 := by
  induction l1 with
  | nil => intro m; simp [frontSpec]
  | cons v t ih =>
    intro m
    rw [List.cons_append, frontSpec, frontSpec]
    by_cases hc : m < v.r
    · rw [if_pos hc, if_pos hc, ih v.r, lastD_cons]
      simp
    · rw [if_neg hc, if_neg hc, ih m]

theorem le_foldl_max (m : ℚ) (L : List ℚ) : m ≤ List.foldl max m L := by
  induction L generalizing m with
  | nil => exact le_refl m
  | cons x xs ih => exact le_trans (le_max_left m x) (ih (max m x))

theorem mem_le_foldl_max {x : ℚ} {L : List ℚ} (m : ℚ) (h : x ∈ L) :
    x ≤ List.foldl max m L := by
  induction L generalizing m with
  | nil => cases h
  | cons y ys ih =>
    rcases List.mem_cons.mp h with rfl | hm
    · exact le_trans (le_max_right m x) (le_foldl_max _ _)
    · exact ih (max m y) hm

theorem frontSpec_mem_c_iff (cands : List Cand) :
    ∀ (m : ℚ) (k : ℕ), k < cands.length → ((cands.map Cand.c).Nodup) →
      ((cands.getD k default).c ∈ (frontSpec m cands).map Cand.c ↔
        List.foldl max m ((cands.take k).map Cand.r) < (cands.getD k default).r) := by
  induction cands with
  | nil => intro m k hk; simp at hk
  | cons v rest ih =>
    intro m k hk hnd
    obtain ⟨hnotin, hndr⟩ := List.nodup_cons.mp hnd
    rw [frontSpec]
    cases k with
    | zero =>
      have hget : (v :: rest).getD 0 default = v := rfl
      rw [hget]
      by_cases hc : m < v.r
      · rw [if_pos hc]
        exact iff_of_true (by simp) (by simpa using hc)
      · rw [if_neg hc]
        refine iff_of_false ?_ (by simpa using hc)
        intro hmem
        rcases List.mem_map.mp hmem with ⟨w, hw, hwc⟩
        have hwr : w ∈ rest := (frontSpec_sublist rest m).mem hw
        exact hnotin (hwc ▸ List.mem_map_of_mem Cand.c hwr)
    | succ K =>
      have hget : (v :: rest).getD (K + 1) default = rest.getD K default := rfl
      have hKl : K < rest.length := by simpa using hk
      have hmemc : (rest.getD K default).c ∈ rest.map Cand.c := by
        rw [List.getD_eq_getElem _ _ hKl]
        exact List.mem_map_of_mem Cand.c (List.getElem_mem hKl)
      have hne : (rest.getD K default).c ≠ v.c := by
        intro hcon
        exact hnotin (hcon ▸ hmemc)
      have htake : ((v :: rest).take (K + 1)).map Cand.r =
          v.r :: (rest.take K).map Cand.r := rfl
      rw [hget, htake]
      simp only [List.foldl_cons]
      by_cases hc : m < v.r
      · rw [if_pos hc, max_eq_right (le_of_lt hc)]
        rw [List.map_cons]
        constructor
        · intro hmem
          rcases List.mem_cons.mp hmem with hcon | hmem2
          · exact absurd hcon hne
          · exact (ih v.r K hKl hndr).mp hmem2
        · intro hfold
          exact List.mem_cons_of_mem _ ((ih v.r K hKl hndr).mpr hfold)
      · rw [if_neg hc, max_eq_left (le_of_not_lt hc)]
        exact ih m K hKl hndr

theorem validCand_cell_c (pr : List (Option ℚ)) (pp : List (Option Prog))
    {i x : ℕ} (hi : i < pr.length)
    (hx : x ∈ Option.map Cand.c (match pr.getD i none with
      | none => none
      | some r =>
        if 0 < r then
          some (⟨(List.range pr.length).getD i 0, pp.getD i none, r⟩ : Cand)
        else none)) : x = i := by
  split at hx
  · simp at hx
  · split at hx
    · rename_i o r heq hpos
      have hx2 : ((⟨(List.range pr.length).getD i 0, pp.getD i none, r⟩ : Cand)).c
          = x := Option.some.inj hx
      rw [← hx2]
      exact getD_range hi 0
    · simp at hx

theorem validCands_c_pairwise (pr : List (Option ℚ)) (pp : List (Option Prog)) :
    ((validCands (List.range pr.length) pr pp).map Cand.c).Pairwise (· < ·) := by
  unfold validCands
  rw [List.map_filterMap]
  rw [List.pairwise_filterMap]
  refine (List.pairwise_lt_range _).imp_of_mem ?_
  intro a b ha hb hab x hx y hy
  rw [validCand_cell_c pr pp (List.mem_range.mp ha) hx,
    validCand_cell_c pr pp (List.mem_range.mp hb) hy]
  exact hab

/-- C3: `get_pareto_front` returns four arrays of equal length whose
complexities and rewards are both strictly increasing, the first (lowest
complexity) valid candidate is always included, and a further candidate is
included exactly when its reward strictly exceeds the reward of every
already-included candidate of smaller complexity. -/
theorem C3_pareto_front_scan (pr : List (Option ℚ)) (pp : List (Option Prog))
    (ystd : ℚ) (cs : List ℕ) (ps : List (Option Prog)) (rs : List ℚ) (es : List ℚ)
    (hres : get_pareto_front (List.range pr.length) pr pp ystd =
      some (cs, ps, rs, es)) :
    cs.length = rs.length ∧ ps.length = rs.length ∧ es.length = rs.length ∧
    List.Chain' (· < ·) cs ∧ List.Chain' (· < ·) rs ∧
    (∀ v0, (validCands (List.range pr.length) pr pp).head? = some v0 →
      cs.head? = some v0.c ∧ rs.head? = some v0.r) ∧
    (∀ k, 0 < k → k < (validCands (List.range pr.length) pr pp).length →
      (((validCands (List.range pr.length) pr pp).getD k default).c ∈ cs ↔
        ∀ j, j < k →
          ((validCands (List.range pr.length) pr pp).getD j default).c ∈ cs →
          ((validCands (List.range pr.length) pr pp).getD j default).r <
            ((validCands (List.range pr.length) pr pp).getD k default).r)) := by
  have hpw : ((validCands (List.range pr.length) pr pp).map Cand.c).Pairwise
      (· < ·) := validCands_c_pairwise pr pp
  unfold get_pareto_front at hres
  rcases hv : validCands (List.range pr.length) pr pp with _ | ⟨v0, rest⟩
  · rw [hv] at hres
    exact absurd hres (by simp)
  · rw [hv] at hres
    rw [hv] at hpw
    have hfront : frontGo [v0] (v0 :: rest) = v0 :: frontSpec v0.r rest := by
      rw [frontGo]
      have hl : ((([v0] : List Cand).getLast?).map Cand.r).getD 0 = v0.r := rfl
      rw [hl, if_neg (lt_irrefl v0.r), frontGo_eq_spec rest [v0] (by simp), hl]
      rfl
    have hres2 : some ((frontGo [v0] (v0 :: rest)).map Cand.c,
        (frontGo [v0] (v0 :: rest)).map Cand.p,
        (frontGo [v0] (v0 :: rest)).map Cand.r,
        (frontGo [v0] (v0 :: rest)).map (fun v => (1 / v.r - 1) * ystd)) =
        some (cs, ps, rs, es) := hres
    rw [hfront] at hres2
    have h4 := Option.some.inj hres2
    simp only [Prod.mk.injEq] at h4
    obtain ⟨hcs, hps, hrs, hes⟩ := h4
    subst hcs hps hrs hes
    obtain ⟨hv0lt, hpwr⟩ := List.pairwise_cons.mp hpw
    have hndr : (rest.map Cand.c).Nodup := hpwr.imp ne_of_lt
    refine ⟨by simp, by simp, by simp, ?_, ?_, ?_, ?_⟩
    · -- complexities strictly increasing
      have hsub : List.Sublist (v0 :: frontSpec v0.r rest) (v0 :: rest) :=
        (frontSpec_sublist rest v0.r).cons₂ v0
      have hsubm : List.Sublist ((v0 :: frontSpec v0.r rest).map Cand.c)
          ((v0 :: rest).map Cand.c) := hsub.map Cand.c
      exact (hpw.sublist hsubm).chain'
    · -- rewards strictly increasing
      refine (List.chain'_map Cand.r).mpr ?_
      refine List.chain'_cons'.mpr ⟨?_, frontSpec_chain rest v0.r⟩
      intro b hb
      exact frontSpec_mem_lt rest v0.r b (List.mem_of_mem_head? hb)
    · -- first candidate included
      intro u hu
      have hv0u := Option.some.inj hu
      subst hv0u
      exact ⟨rfl, rfl⟩
    · -- inclusion criterion
      intro k hk0 hkl
      obtain ⟨K, rfl⟩ : ∃ K, k = K + 1 := ⟨k - 1, by omega⟩
      have hKl : K < rest.length := by simpa using hkl
      have hgetk : (v0 :: rest).getD (K + 1) default = rest.getD K default := rfl
      rw [hgetk]
      have hwmem : (rest.getD K default).c ∈ rest.map Cand.c := by
        rw [List.getD_eq_getElem _ _ hKl]
        exact List.mem_map_of_mem Cand.c (List.getElem_mem hKl)
      have hv0w : v0.c < (rest.getD K default).c := hv0lt _ hwmem
      have hLHS : (rest.getD K default).c ∈ (v0 :: frontSpec v0.r rest).map Cand.c ↔
          (rest.getD K default).c ∈ (frontSpec v0.r rest).map Cand.c := by
        simp only [List.map_cons, List.mem_cons]
        constructor
        · intro h
          rcases h with hcon | h2
          · exact absurd hcon (ne_of_gt hv0w)
          · exact h2
        · exact fun h => Or.inr h
      rw [hLHS, frontSpec_mem_c_iff rest v0.r K hKl hndr]
      have hcmono : ∀ j1 j2, j1 < j2 → j2 < rest.length →
          (rest.getD j1 default).c < (rest.getD j2 default).c := by
        intro j1 j2 h12 h2l
        have h1l : j1 < rest.length := lt_trans h12 h2l
        have hpg := List.pairwise_iff_getElem.mp hpwr
        have := hpg j1 j2 (by simpa using h1l) (by simpa using h2l) h12
        rw [List.getElem_map, List.getElem_map] at this
        rwa [List.getD_eq_getElem _ _ h1l, List.getD_eq_getElem _ _ h2l]
      constructor
      · -- foldl bound implies criterion
        intro hfold j hj _hinc
        cases j with
        | zero =>
          exact lt_of_le_of_lt (le_foldl_max v0.r _) hfold
        | succ J =>
          have hJK : J < K := by omega
          have hJl : J < rest.length := lt_trans hJK hKl
          have hgj : (v0 :: rest).getD (J + 1) default = rest.getD J default := rfl
          rw [hgj]
          have hmemr : (rest.getD J default).r ∈ (rest.take K).map Cand.r := by
            have hJt : J < (rest.take K).length := by
              rw [List.length_take]
              omega
            have hgd : (rest.take K).getD J default = rest.getD J default :=
              getD_take hJK (le_of_lt hKl) default
            rw [← hgd, List.getD_eq_getElem _ _ hJt]
            exact List.mem_map_of_mem Cand.r (List.getElem_mem hJt)
          exact lt_of_le_of_lt (mem_le_foldl_max v0.r hmemr) hfold
      · -- criterion implies foldl bound
        intro hcrit
        have hsplit := frontSpec_append (rest.take K) (rest.drop K) v0.r
        rw [List.take_append_drop] at hsplit
        rw [frontSpec_foldl (rest.take K) v0.r]
        rcases hF : frontSpec v0.r (rest.take K) with _ | ⟨u, us⟩
        · -- no further kept candidate in the prefix: the bound is v0.r
          have h0inc : ((v0 :: rest).getD 0 default).c ∈
              (v0 :: frontSpec v0.r rest).map Cand.c := by simp
          have := hcrit 0 (Nat.succ_pos K) h0inc
          simpa using this
        · obtain ⟨z, hz⟩ : ∃ z, (u :: us).getLast? = some z :=
            ⟨(u :: us).getLast (by simp), List.getLast?_eq_getLast_of_ne_nil (by simp)⟩
          rw [hz]
          have hzmemF : z ∈ frontSpec v0.r (rest.take K) := by
            rw [hF]
            exact mem_of_getLast?_eq hz
          have hzmemT : z ∈ rest.take K := (frontSpec_sublist _ _).mem hzmemF
          obtain ⟨J, hJt, hJz⟩ := List.mem_iff_getElem.mp hzmemT
          have hJK : J < K := by
            have := hJt
            rw [List.length_take] at this
            omega
          have hJl : J < rest.length := lt_trans hJK hKl
          have hrJ : rest.getD J default = z := by
            rw [← getD_take hJK (le_of_lt hKl) default,
              List.getD_eq_getElem _ _ hJt, hJz]
          have hzmemFull : z ∈ frontSpec v0.r rest := by
            rw [hsplit]
            exact List.mem_append_left _ hzmemF
          have hinc : ((v0 :: rest).getD (J + 1) default).c ∈
              (v0 :: frontSpec v0.r rest).map Cand.c := by
            have hgj : (v0 :: rest).getD (J + 1) default = rest.getD J default := rfl
            rw [hgj, hrJ]
            exact List.mem_cons_of_mem _ (List.mem_map_of_mem Cand.c hzmemFull)
          have := hcrit (J + 1) (by omega) hinc
          have hgj : (v0 :: rest).getD (J + 1) default = rest.getD J default := rfl
          rw [hgj, hrJ] at this
          simpa using this

/-! ### Concrete witnesses -/

/-- A small well-formed batch for epoch 0. -/
def wInp0 : LogInput := ⟨2, [1, 5], [2, 3], [2, 3], [true, true], 1, [0], [1], 0⟩

/-- A small well-formed batch for epoch 1. -/
def wInp1 : LogInput := ⟨2, [4, 6], [3, 9], [3, 9], [true, true], 1, [0], [1], 2⟩

theorem C1_hall_of_fame_witness :
    (runLogSeq false [wInp0, wInp1]).overall_max_R_history.length = 2 :=
  (C1_hall_of_fame false [wInp0, wInp1] (by decide) (by decide)).1

theorem C2_pareto_rewards_invariant_witness :
    (runLogSeq false [wInp0, wInp1]).pareto_complexities = List.range 10 :=
  (C2_pareto_rewards_invariant false [wInp0, wInp1] (by decide) (by decide)).1

theorem C3_pareto_front_scan_witness :
    ([0, 2] : List ℕ).length = ([1, 2] : List ℚ).length :=
  (C3_pareto_front_scan [some 1, none, some 2] [none, none, none] 0
    [0, 2] [none, none] [1, 2]
    [(1 / (1 : ℚ) - 1) * 0, (1 / (2 : ℚ) - 1) * 0] rfl).1

theorem C4_csv_rows_witness :
    (log (initLogger true) 0 wInp0).csv =
      (if (0 : ℕ) = 0 then [] else (initLogger true).csv) ++ batchRows 0 wInp0 :=
  (C4_csv_rows (initLogger true) 0 wInp0 rfl (by decide)).1

theorem C5_visualise_schedule_witness :
    visualise ⟨10, "run.png", "run_log.csv", true, true⟩ 20 true true true =
      Except.ok
        (VisEvent.storeRefs ::
          ((if (20 : ℕ) = 0 then [VisEvent.initFig] else []) ++
            (if (10 : ℕ) ∣ 20 then
              (if true then [VisEvent.makeVis] else []) ++
                (if true then [VisEvent.saveVis] else [])
            else []))) :=
  C5_visualise_schedule ⟨10, "run.png", "run_log.csv", true, true⟩ 20 (by decide)

theorem C6_per_epoch_histories_witness :
    (runLogSeq false [wInp0, wInp1]).epochs_history = List.range 2 :=
  (C6_per_epoch_histories false [wInp0, wInp1] (by decide)).2.1

theorem C8_failure_iff_witness :
    (get_pareto_front (runLogSeq false [wInp0]).pareto_complexities
      (runLogSeq false [wInp0]).pareto_rewards
      (runLogSeq false [wInp0]).pareto_programs 1).isSome = true :=
  C8_failure_iff.2.2 false [wInp0] 1 (by decide) (by decide)
    ⟨wInp0, by decide, 0, by decide, by decide, by decide, by decide⟩

theorem C10_visualise_catches_witness :
    (visualise ⟨10, "run.png", "run_log.csv", true, true⟩ 13 false false false).isOk
      = true :=
  (C10_visualise_catches ⟨10, "run.png", "run_log.csv", true, true⟩ 13 false false
    false (by decide)).1

example : maxQ [3, 1, 5, 5] = 5 := by decide
example : argmaxQ [3, 5, 1, 5] = 1 := by decide
example : npRound (mkRat 5 2) = 2 := by decide
example : npRound (mkRat 7 2) = 4 := by decide
example : npRound (mkRat 3 10) = 0 := by decide
example : npRound (mkRat 17 10) = 2 := by decide
example : npRound 3 = 3 := by decide
